import Mathlib

/-!
Verification development for the Instagram data-export parser
(`InstagramDataParser` in `src/utils/instagramDataParser.ts`).

The parser's algorithmic core is embedded shallowly:

* JavaScript strings are Lean `String`s; the string operations the code uses
  (`includes`, `indexOf`, `lastIndexOf`, `substring`, `split('/')`, `trim`,
  `toLowerCase`, `startsWith`, `endsWith`) are re-implemented by structural
  recursion over the underlying character lists so that every definition
  evaluates inside the kernel.
* Parsed JSON values are a mutual inductive `JsonVal`/`JsonArr`/`JsonObj`
  (tagged union of null/bool/number/string/array/object).  Numbers are
  modelled as `Int` (the metadata timestamps of interest are integral).
* JavaScript truthiness and `toString` coercions are modelled explicitly.
* A JS object used as a dictionary (`extractedFiles`, `imageMap`) is an
  association list with JS insertion semantics: assigning to an existing key
  overwrites the value in place (keeping the key's original position),
  assigning to a fresh key appends.
* `new Date(string).getTime()` is modelled by an abstract parameter
  `dateParse : String → Option Int`; `none` stands for the `NaN` result of
  an unparseable date string.  `Date.now()` is modelled by an explicit
  `now : Int` argument to the matcher/pipeline.
* The TypeScript timestamp value (`number | undefined`, where `NaN` is a
  possible number) is the three-valued `TsVal`.
* `TextDecoder().decode` + `JSON.parse` of a metadata buffer is an abstract
  `decode : β → Option JsonVal` (`none` = undecodable text or invalid JSON,
  both of which raise and are caught by the same handler in the source).
-/

/-! ## Character-list string primitives -/

/-- Does the second list start with the first? (building block for
`includes`, `indexOf`, `startsWith`). -/
def charsPrefixOf : List Char → List Char → Bool
  | [], _ => true
  | _ :: _, [] => false
  | a :: as, b :: bs => a == b && charsPrefixOf as bs

/-- JS `haystack.includes(needle)` on character lists. -/
def charsIncludes : List Char → List Char → Bool
  | [], sub => sub.isEmpty
  | c :: rest, sub => charsPrefixOf sub (c :: rest) || charsIncludes rest sub

/-- JS `haystack.indexOf(needle)` on character lists (`none` models `-1`). -/
def charsIndexOf : List Char → List Char → Option Nat
  | [], sub => if sub.isEmpty then some 0 else none
  | c :: rest, sub =>
    if charsPrefixOf sub (c :: rest) then some 0
    else (charsIndexOf rest sub).map (· + 1)

/-- JS `s.lastIndexOf(c)` for a single character (`none` models `-1`). -/
def charsLastIndexOf : List Char → Char → Option Nat
  | [], _ => none
  | x :: xs, c =>
    match charsLastIndexOf xs c with
    | some i => some (i + 1)
    | none => if x == c then some 0 else none

/-- JS `s.split(sep)` for a one-character separator; always returns at least
one group, like the JS original. -/
def charsSplit (sep : Char) : List Char → List (List Char)
  | [] => [[]]
  | c :: rest =>
    if c == sep then [] :: charsSplit sep rest
    else
      match charsSplit sep rest with
      | g :: gs => (c :: g) :: gs
      | [] => [[c]]

/-- JS `s.includes(sub)`. -/
def strIncludes (s sub : String) : Bool := charsIncludes s.data sub.data

/-- JS `s.indexOf(sub)` (`none` models `-1`). -/
def strIndexOf (s sub : String) : Option Nat := charsIndexOf s.data sub.data

/-- JS `s.startsWith(pre)`. -/
def strStartsWith (s pre : String) : Bool := charsPrefixOf pre.data s.data

/-- JS `s.endsWith(suf)`. -/
def strEndsWith (s suf : String) : Bool :=
  charsPrefixOf suf.data.reverse s.data.reverse

/-- JS `s.substring(0, n)`. -/
def strTake (s : String) (n : Nat) : String := ⟨s.data.take n⟩

/-- JS whitespace test used by `trim` (core ASCII whitespace; the JS method
also strips some exotic Unicode spaces, which never occur in the claims). -/
def isWs (c : Char) : Bool := c == ' ' || c == '\t' || c == '\n' || c == '\r'

/-- JS `s.trim()`. -/
def strTrim (s : String) : String :=
  ⟨((s.data.dropWhile isWs).reverse.dropWhile isWs).reverse⟩

/-- JS `s.toLowerCase()` (per-character simple lowering; length-preserving,
which is all the extension check relies on). -/
def strLower (s : String) : String := ⟨s.data.map Char.toLower⟩

/-- JS `path.split('/')` as Lean strings. -/
def splitSlash (s : String) : List String :=
  (charsSplit '/' s.data).map (fun l => ⟨l⟩)

/-- `path.split('/').pop() || ''` — the last path segment (used both for image
filenames and for the URI filename in the matcher). -/
def lastSegment (s : String) : String := (splitSlash s).getLastD ""

/-! ## JSON values, JS truthiness and JS `toString` -/

mutual
/-- A parsed JSON value (output of `JSON.parse`); object keys are unique
because `JSON.parse` keeps only the last duplicate. -/
inductive JsonVal : Type where
  | null : JsonVal
  | bool (b : Bool) : JsonVal
  | num (n : Int) : JsonVal
  | str (s : String) : JsonVal
  | arr (elems : JsonArr) : JsonVal
  | obj (fields : JsonObj) : JsonVal
inductive JsonArr : Type where
  | nil : JsonArr
  | cons (hd : JsonVal) (tl : JsonArr) : JsonArr
inductive JsonObj : Type where
  | nil : JsonObj
  | cons (key : String) (val : JsonVal) (tl : JsonObj) : JsonObj
end

/-- JS truthiness of a JSON value (`if (v)`): `null`, `false`, `0` and `""`
are falsy, arrays and objects are always truthy. -/
def truthy : JsonVal → Bool
  | .null => false
  | .bool b => b
  | .num n => n != 0
  | .str s => s != ""
  | .arr _ => true
  | .obj _ => true

mutual
/-- JS `v.toString()`: numbers print decimally, arrays join their elements
with `','` (null elements print as empty), objects print `[object Object]`. -/
def jsToString : JsonVal → String
  | .null => "null"
  | .bool b => cond b "true" "false"
  | .num n => toString n
  | .str s => s
  | .obj _ => "[object Object]"
  | .arr xs => jsArrToString xs
def jsArrToString : JsonArr → String
  | .nil => ""
  | .cons x .nil => jsElemToString x
  | .cons x tl => jsElemToString x ++ "," ++ jsArrToString tl
def jsElemToString : JsonVal → String
  | .null => ""
  | .bool b => cond b "true" "false"
  | .num n => toString n
  | .str s => s
  | .obj _ => "[object Object]"
  | .arr xs => jsArrToString xs
end

/-- The TypeScript `timestamp` slot: `undefined`, the number `NaN` (result of
`new Date(badString).getTime()`), or an actual number. -/
inductive TsVal : Type where
  | undef : TsVal
  | nan : TsVal
  | val (n : Int) : TsVal
deriving DecidableEq, Repr

/-- JS truthiness of a `number | undefined` slot: `undefined`, `NaN` and `0`
are all falsy. -/
def TsVal.truthy : TsVal → Bool
  | .undef => false
  | .nan => false
  | .val n => n != 0

/-! ## JS-object association tables

`extractedFiles` and `imageMap` are plain JS objects used as dictionaries.
Assignment `o[k] = v` overwrites in place when `k` is present (iteration
order keeps the key's first-insertion position) and appends otherwise;
`o[k]` reads the binding. -/

/-- JS `o[k] = v` on an association list. -/
def insertEntry {β : Type} (t : List (String × β)) (k : String) (v : β) :
    List (String × β) :=
  if t.any (fun kv => kv.1 == k) then
    t.map (fun kv => if kv.1 == k then (k, v) else kv)
  else t ++ [(k, v)]

/-- Repeated JS assignment of a batch of key/value pairs. -/
def insertAll {β : Type} (t : List (String × β)) (es : List (String × β)) :
    List (String × β) :=
  es.foldl (fun m kv => insertEntry m kv.1 kv.2) t

/-- JS `o[k]` read (first binding; tables built by `insertEntry` from `[]`
have unique keys). -/
def lookupKey {β : Type} : List (String × β) → String → Option β
  | [], _ => none
  | kv :: rest, k => if kv.1 == k then some kv.2 else lookupKey rest k

/-! ## `extractZipFile`

`zipContent.files` is a JS object (unique names); every non-directory entry
is stored into the instance table `this.extractedFiles` — which is *not*
cleared first.  An archive is modelled as its entry list
`(name, isDirectory, content)`. -/

/-- The non-directory entries of an archive, in archive order. -/
def nonDirEntries {β : Type} (entries : List (String × Bool × β)) :
    List (String × β) :=
  entries.filterMap (fun e => if e.2.1 then none else some (e.1, e.2.2))

/-! ## `findDirectories` -/

/-- The condition of the media-root scan:
`path.includes('media') && path.includes('posts')`. -/
def mediaPred (p : String) : Bool := strIncludes p "media" && strIncludes p "posts"

/-- The condition of the activity-root scan:
`path.includes('your_instagram_activity')`. -/
def activityPred (p : String) : Bool := strIncludes p "your_instagram_activity"

/-- `findDirectories`: scan the table keys; the media root is the prefix of
the first key containing both `media` and `posts`, up to the first `posts`;
the activity root is the prefix of the first key containing
`your_instagram_activity`, including that literal.  `none` models the thrown
`Could not find required directories` error (`!mediaDir || !activityDir`:
an *empty* prefix also counts as not found). -/
def findDirectories (paths : List String) : Option (String × String) :=
  let mediaDir : String :=
    match paths.find? mediaPred with
    | some p => strTake p ((strIndexOf p "posts").getD 0)
    | none => ""
  let activityDir : String :=
    match paths.find? activityPred with
    | some p =>
      strTake p ((strIndexOf p "your_instagram_activity").getD 0) ++
        "your_instagram_activity"
    | none => ""
  if mediaDir == "" || activityDir == "" then none
  else some (mediaDir, activityDir)

/-! ## `findMetadataFiles` -/

/-- Priority order for metadata files. -/
def priorityFiles : List String :=
  ["posts_1.json", "posts.json", "media.json", "saved_posts.json"]

/-- `priorityFiles.indexOf name` (`none` models `-1`). -/
def listIndexOf : List String → String → Option Nat
  | [], _ => none
  | x :: xs, s => if x == s then some 0 else (listIndexOf xs s).map (· + 1)

/-- The sort key of one metadata file: its priority-list index, with
not-listed files (`indexOf = -1`) sorting after every listed one.  The TS
comparator (`aPriority - bPriority`, `-1` last, two `-1`s kept in order) is
exactly a stable sort by this rank. -/
def prioRank (path : String) : Nat :=
  (listIndexOf priorityFiles (lastSegment path)).getD priorityFiles.length

/-- Stable insertion of one file into a rank-sorted list (an element moves
before another only when its rank is strictly smaller, so original order is
kept among equal ranks). -/
def insertRanked {β : Type} (x : String × β) :
    List (String × β) → List (String × β)
  | [] => [x]
  | y :: ys =>
    if prioRank x.1 ≤ prioRank y.1 then x :: y :: ys
    else y :: insertRanked x ys

/-- Stable sort by `prioRank` (models `Array.prototype.sort` with the
comparator of the source, which modern engines run stably).  The source
recovers each buffer's path by reference identity against the table; since
every buffer object is distinct, this is the same as carrying the
`(path, content)` pair along, as done here. -/
def sortRanked {β : Type} : List (String × β) → List (String × β)
  | [] => []
  | x :: xs => insertRanked x (sortRanked xs)

/-- `findMetadataFiles`: every table entry whose key starts with the activity
root and ends with `.json`, in table order, then priority-sorted. -/
def findMetadataFiles {β : Type} (activityDir : String)
    (table : List (String × β)) : List (String × β) :=
  sortRanked (table.filter
    (fun kv => strStartsWith kv.1 activityDir && strEndsWith kv.1 ".json"))

/-! ## `extractPostInfo` -/

/-- Candidate caption field names, probed in order. -/
def captionKeys : List String := ["title", "caption", "description", "text", "content"]

/-- Candidate media-URI field names, probed in order. -/
def mediaUriKeys : List String := ["uri", "media_uri", "file_path", "path", "url"]

/-- Candidate timestamp field names, probed in order. -/
def timestampKeys : List String :=
  ["creation_timestamp", "timestamp", "created_time", "date", "time"]

/-- Field read on a parsed JSON object. -/
def lookupField : JsonObj → String → Option JsonVal
  | .nil, _ => none
  | .cons k v tl, key => if k == key then some v else lookupField tl key

/-- `item[key]` where `item` is any JSON value: object fields resolve by
name; on arrays and scalars the probed names (`title`, `uri`, …) are absent
properties, i.e. `undefined`. -/
def itemLookup : JsonVal → String → Option JsonVal
  | .obj fields, k => lookupField fields k
  | _, _ => none

/-- The caption/URI probing loop:
`if (item[key] && item[key].toString().trim()) { take it; break }` —
the first probed field whose value is truthy and trims to a non-blank
string, returned trimmed. -/
def firstNonBlank (item : JsonVal) : List String → Option String
  | [] => none
  | k :: ks =>
    match itemLookup item k with
    | some v =>
      if truthy v && strTrim (jsToString v) != "" then some (strTrim (jsToString v))
      else firstNonBlank item ks
    | none => firstNonBlank item ks

/-- The timestamp probing loop: break at the first *truthy* field; a numeric
value is used directly, a string value goes through `new Date(...).getTime()`
(`dateParse`, with `none` = `NaN`), any other truthy value leaves the
timestamp `undefined`. -/
def extractTimestamp (dateParse : String → Option Int) (item : JsonVal) :
    List String → TsVal
  | [] => .undef
  | k :: ks =>
    match itemLookup item k with
    | some v =>
      if truthy v then
        match v with
        | .num n => .val n
        | .str s =>
          match dateParse s with
          | some n => .val n
          | none => .nan
        | _ => .undef
      else extractTimestamp dateParse item ks
    | none => extractTimestamp dateParse item ks

/-- The intermediate post record built by `extractPostInfo`. -/
structure PostInfo : Type where
  caption : String
  mediaUri : String
  timestamp : TsVal
  originalData : JsonVal

/-- `extractPostInfo`: caption with default, media URI (required — `null` is
returned when every probe fails), timestamp, original payload. -/
def extractPostInfo (dateParse : String → Option Int) (item : JsonVal) :
    Option PostInfo :=
  let caption := (firstNonBlank item captionKeys).getD "Instagram post"
  let mediaUri := (firstNonBlank item mediaUriKeys).getD ""
  let timestamp := extractTimestamp dateParse item timestampKeys
  if mediaUri == "" then none
  else some ⟨caption, mediaUri, timestamp, item⟩

/-! ## `parseMetadata` -/

/-- The keys probed for a nested items array. -/
def itemsKeyCandidates : List String := ["media", "posts", "data", "items"]

/-- `data[key] && Array.isArray(data[key])` probing: the first field bound to
an array (arrays are always truthy, even empty). -/
def findItemsArr (fields : JsonObj) : List String → Option JsonArr
  | [] => none
  | k :: ks =>
    match lookupField fields k with
    | some (.arr xs) => some xs
    | _ => findItemsArr fields ks

/-- `typeof item === 'object' && item !== null` (true for objects *and*
arrays). -/
def isObjectNonNull : JsonVal → Bool
  | .obj _ => true
  | .arr _ => true
  | _ => false

/-- The per-item loop: items passing the object test go through
`extractPostInfo`; `null` results are not pushed. -/
def extractItems (dateParse : String → Option Int) : JsonArr → List PostInfo
  | .nil => []
  | .cons x tl =>
    match (if isObjectNonNull x then extractPostInfo dateParse x else none) with
    | some pi => pi :: extractItems dateParse tl
    | none => extractItems dateParse tl

/-- Normalizing one parsed metadata value and extracting its posts.
`.error` models the uncaught-inside-the-branch `TypeError` raised by probing
`null['media']` (`typeof null === 'object'`); top-level scalars leave `items`
empty.  A top-level object takes the first nested array field, or — when
there is none or it is empty — itself as a single item. -/
def processData (dateParse : String → Option Int) (data : JsonVal) :
    Except Unit (List PostInfo) :=
  match data with
  | .arr xs => .ok (extractItems dateParse xs)
  | .null => .error ()
  | .obj fields =>
    let items : JsonArr :=
      match findItemsArr fields itemsKeyCandidates with
      | some xs =>
        match xs with
        | .nil => .cons data .nil
        | _ => xs
      | none => .cons data .nil
    .ok (extractItems dateParse items)
  | _ => .ok []

/-- The accumulator loop of `parseMetadata`: per file, decode + `JSON.parse`
(abstract `decode`; `none` = the caught decode/parse exception) and process;
any per-file failure is caught (`console.warn` + `continue`) and the
accumulated `postsData` of earlier files is kept. -/
def parseMetadataGo {β : Type} (dateParse : String → Option Int)
    (decode : β → Option JsonVal) : List β → List PostInfo → List PostInfo
  | [], acc => acc
  | f :: fs, acc =>
    match decode f with
    | none => parseMetadataGo dateParse decode fs acc
    | some v =>
      match processData dateParse v with
      | .error _ => parseMetadataGo dateParse decode fs acc
      | .ok ps => parseMetadataGo dateParse decode fs (acc ++ ps)

/-- `parseMetadata` over the ordered candidate files. -/
def parseMetadata {β : Type} (dateParse : String → Option Int)
    (decode : β → Option JsonVal) (files : List β) : List PostInfo :=
  parseMetadataGo dateParse decode files []

/-- What one decoded metadata value contributes to the output (a caught
failure contributes nothing). -/
def postsOfData (dateParse : String → Option Int) (v : JsonVal) : List PostInfo :=
  match processData dateParse v with
  | .ok ps => ps
  | .error _ => []

/-! ## `findImageFiles` -/

/-- Recognized image extensions. -/
def imageExtensions : List String := [".jpg", ".jpeg", ".png", ".bmp", ".webp"]

/-- `filePath.toLowerCase().substring(filePath.lastIndexOf('.'))`: the
lowercased extension; when there is no dot, `lastIndexOf` gives `-1` and JS
`substring(-1)` clamps to `0`, yielding the whole lowercased path. -/
def extOf (p : String) : String :=
  let lower := strLower p
  match charsLastIndexOf p.data '.' with
  | some i => ⟨lower.data.drop i⟩
  | none => lower

/-- `findImageFiles`: table keys under the media root with a recognized
extension, in table order. -/
def findImageFiles {β : Type} (mediaDir : String) (table : List (String × β)) :
    List String :=
  (table.map Prod.fst).filter
    (fun p => strStartsWith p mediaDir && imageExtensions.contains (extOf p))

/-! ## `matchPostsWithImages` -/

/-- A matched post/image pair. -/
structure MatchedPair : Type where
  imagePath : String
  caption : String
  timestamp : TsVal
  originalData : JsonVal

/-- The filename → full path map: `imageMap[filename] = imgPath` per image in
order, so a duplicate filename keeps the *last* path. -/
def buildImageMap (imageFiles : List String) : List (String × String) :=
  imageFiles.foldl (fun m p => insertEntry m (lastSegment p) p) []

/-- The partial-match loop of `findImageByUri`: first map entry (in insertion
order) whose filename contains some non-empty segment of the URI. -/
def partialScan (uriParts : List String) (imageMap : List (String × String)) :
    Option String :=
  (imageMap.find? (fun kv =>
    uriParts.any (fun part => part != "" && strIncludes kv.1 part))).map Prod.snd

/-- `findImageByUri`: exact lookup of the URI's last segment in the image map
(a hit must be truthy, i.e. a non-empty path, to be taken), then the
partial-filename scan. -/
def findImageByUri (uri : String) (imageMap : List (String × String)) :
    Option String :=
  let uriParts := splitSlash uri
  let filename := uriParts.getLastD ""
  match lookupKey imageMap filename with
  | some p => if p != "" then some p else partialScan uriParts imageMap
  | none => partialScan uriParts imageMap

/-- `findImageByTimestamp`: the simplified implementation ignores the
timestamp and returns the first available image. -/
def findImageByTimestamp (timestamp : TsVal) (imageFiles : List String) :
    Option String :=
  match imageFiles with
  | img :: _ => some img
  | [] => none

/-- One iteration of the matching loop: URI matching is attempted only for a
truthy (non-empty) `mediaUri`; on failure the timestamp fallback is attempted
only for a truthy timestamp (`0`, `NaN` and `undefined` all skip it). -/
def matchOne (imageMap : List (String × String)) (imageFiles : List String)
    (post : PostInfo) : Option MatchedPair :=
  match (if post.mediaUri != "" then findImageByUri post.mediaUri imageMap else none) with
  | some img => some ⟨img, post.caption, post.timestamp, post.originalData⟩
  | none =>
    if post.timestamp.truthy then
      match findImageByTimestamp post.timestamp imageFiles with
      | some img => some ⟨img, post.caption, post.timestamp, post.originalData⟩
      | none => none
    else none

/-- `matchPostsWithImages`: per-post matching; if no post matched and images
exist, synthesize one generic pair per image, capped at 20, with caption
`Instagram post N` (1-indexed) and timestamp `now - i*86400000`. -/
def matchPostsWithImages (postsData : List PostInfo) (imageFiles : List String)
    (now : Int) : List MatchedPair :=
  let imageMap := buildImageMap imageFiles
  let matched := postsData.filterMap (matchOne imageMap imageFiles)
  if matched.isEmpty && !imageFiles.isEmpty then
    (List.range (min imageFiles.length 20)).map (fun i =>
      ⟨imageFiles.getD i "", "Instagram post " ++ toString (i + 1),
        .val (now - (i : Int) * 86400000), .obj .nil⟩)
  else matched

/-! ## The full pipeline (`parseInstagramData`) -/

/-- The content of a `ParsedInstagramData` that the idempotence claim
compares: post content (pairs carry caption/timestamp/imagePath), the
counts, and the metadata-file name list.  (`posts[i].id` and the minted
image handles are excluded by the claim.)  `metadataNames` reflects the
source's `metadataFiles.map(f => f.name)` — reading `.name` off an
`ArrayBuffer` yields `undefined`, modelled as `none`, one per file. -/
structure PipelineOut : Type where
  pairs : List MatchedPair
  totalPosts : Nat
  totalImages : Nat
  metadataNames : List (Option String)

/-- The pipeline body run over the instance table (ZIP extraction already
done): directory resolution (fatal on failure), metadata candidates,
metadata parsing, image location, matching, result assembly. -/
def pipelineOf {β : Type} (dateParse : String → Option Int)
    (decode : β → Option JsonVal) (table : List (String × β)) (now : Int) :
    Option PipelineOut :=
  match findDirectories (table.map Prod.fst) with
  | none => none
  | some (mediaDir, activityDir) =>
    let metaFiles := findMetadataFiles activityDir table
    let postsData := parseMetadata dateParse decode (metaFiles.map Prod.snd)
    let imageFiles := findImageFiles mediaDir table
    let pairs := matchPostsWithImages postsData imageFiles now
    some ⟨pairs, pairs.length, imageFiles.length, metaFiles.map (fun _ => none)⟩

/-- One `parseInstagramData` invocation on a parser whose instance table is
`state`: the archive's non-directory entries are assigned into the table
(which is *not* cleared first), then the pipeline runs over the table.
Returns the new instance state and the result (`none` = thrown error). -/
def runParse {β : Type} (dateParse : String → Option Int)
    (decode : β → Option JsonVal) (state : List (String × β))
    (entries : List (String × Bool × β)) (now : Int) :
    List (String × β) × Option PipelineOut :=
  let state1 := insertAll state (nonDirEntries entries)
  (state1, pipelineOf dateParse decode state1 now)

/-! ## Helper lemmas: generic list facts -/

theorem map_eq_self_of_mem {α : Type} {l : List α} {f : α → α}
    (h : ∀ a ∈ l, f a = a) : l.map f = l := by
  induction l with
  | nil => rfl
  | cons a l ih =>
    rw [List.map_cons, h a (List.mem_cons_self a l),
      ih (fun b hb => h b (List.mem_cons_of_mem a hb))]

theorem getLast?_cons_of_some {α : Type} {l : List α} {q : α} (p : α)
    (h : l.getLast? = some q) : (p :: l).getLast? = some q := by
  cases l with
  | nil => simp [List.getLast?] at h
  | cons a l => rw [List.getLast?_cons_cons]; exact h

theorem mem_of_getLast?_eq_some {α : Type} {l : List α} {a : α}
    (h : l.getLast? = some a) : a ∈ l := by
  induction l with
  | nil => simp [List.getLast?] at h
  | cons x xs ih =>
    cases xs with
    | nil =>
      simp [List.getLast?] at h
      simp [h]
    | cons y ys =>
      rw [List.getLast?_cons_cons] at h
      exact List.mem_cons_of_mem _ (ih h)

theorem getLast?_isSome_of_ne_nil {α : Type} {l : List α} (h : l ≠ []) :
    ∃ a, l.getLast? = some a := by
  cases hl : l.getLast? with
  | some a => exact ⟨a, rfl⟩
  | none => exact absurd (List.getLast?_eq_none_iff.mp hl) h

/-! ## Helper lemmas: association-table reads and writes -/

theorem lookupKey_eq_none_of_not_any {β : Type} {m : List (String × β)} {k : String}
    (h : m.any (fun kv => kv.1 == k) = false) : lookupKey m k = none := by
  induction m with
  | nil => rfl
  | cons kv rest ih =>
    simp only [List.any_cons, Bool.or_eq_false_iff] at h
    simp [lookupKey, h.1, ih h.2]

theorem lookupKey_append_single {β : Type} (m : List (String × β)) (k : String) (v : β)
    (k2 : String) :
    lookupKey (m ++ [(k, v)]) k2 =
      match lookupKey m k2 with
      | some w => some w
      | none => if k2 = k then some v else none := by
  induction m with
  | nil =>
    simp only [List.nil_append, lookupKey]
    by_cases h : k = k2
    · subst h; simp
    · simp [h, Ne.symm h]
  | cons kv rest ih =>
    simp only [List.cons_append, lookupKey]
    by_cases h : kv.1 = k2
    · simp [h]
    · simp [h, ih]

/-- Pointwise form of the in-place update performed by `insertEntry` on a
present key (the `map` branch). -/
def updateAssoc {β : Type} : List (String × β) → String → β → List (String × β)
  | [], _, _ => []
  | kv :: rest, k, v => (if kv.1 == k then (k, v) else kv) :: updateAssoc rest k v

theorem map_update_eq_updateAssoc {β : Type} (m : List (String × β)) (k : String) (v : β) :
    m.map (fun kv => if kv.1 == k then (k, v) else kv) = updateAssoc m k v := by
  induction m with
  | nil => rfl
  | cons kv rest ih => simp only [List.map_cons, updateAssoc, ih]

theorem lookupKey_updateAssoc {β : Type} (m : List (String × β)) (k : String) (v : β)
    (k2 : String) :
    lookupKey (updateAssoc m k v) k2 =
      if k2 = k then (if m.any (fun kv => kv.1 == k) then some v else none)
      else lookupKey m k2 := by
  induction m with
  | nil =>
    by_cases h : k2 = k <;> simp [updateAssoc, lookupKey, h]
  | cons kv rest ih =>
    by_cases h1 : kv.1 = k
    · by_cases h2 : k2 = k
      · subst h2
        simp [updateAssoc, lookupKey, h1, ih]
      · have hne : ¬(k = k2) := fun hh => h2 hh.symm
        simp [updateAssoc, lookupKey, h1, h2, hne, ih]
    · by_cases h2 : k2 = k
      · subst h2
        have hb : (kv.1 == k2) = false := beq_eq_false_iff_ne.mpr h1
        simp only [updateAssoc, lookupKey, hb, List.any_cons, ih, if_true]
        rw [Bool.false_or]
        simp [lookupKey, hb]
      · by_cases h3 : kv.1 = k2
        · simp [updateAssoc, lookupKey, h1, h2, h3, ih]
        · simp [updateAssoc, lookupKey, h1, h2, h3, ih]

theorem lookupKey_insertEntry {β : Type} (m : List (String × β)) (k : String) (v : β)
    (k2 : String) :
    lookupKey (insertEntry m k v) k2 = if k2 = k then some v else lookupKey m k2 := by
  unfold insertEntry
  cases hany : m.any (fun kv => kv.1 == k) with
  | true =>
    simp only [hany, if_true, map_update_eq_updateAssoc, lookupKey_updateAssoc]
  | false =>
    simp only [hany, Bool.false_eq_true, if_false, lookupKey_append_single]
    by_cases h2 : k2 = k
    · subst h2
      rw [lookupKey_eq_none_of_not_any hany]
    · cases h : lookupKey m k2 <;> simp [h2]

/-! ## Helper lemmas: the image map keeps the last path per filename -/

theorem lookupKey_buildImageMap_go (files : List String)
    (m : List (String × String)) (f : String) :
    lookupKey (files.foldl (fun m p => insertEntry m (lastSegment p) p) m) f =
      match (files.filter (fun p => lastSegment p == f)).getLast? with
      | some q => some q
      | none => lookupKey m f := by
  induction files generalizing m with
  | nil => simp
  | cons p ps ih =>
    simp only [List.foldl_cons, List.filter_cons]
    rw [ih]
    by_cases h : lastSegment p = f
    · rw [h, if_pos (beq_self_eq_true f)]
      cases hq : (List.filter (fun x => lastSegment x == f) ps).getLast? with
      | some q => rw [getLast?_cons_of_some p hq]
      | none =>
        rw [List.getLast?_eq_none_iff.mp hq]
        simp [lookupKey_insertEntry, List.getLast?]
    · have hb : (lastSegment p == f) = false := beq_eq_false_iff_ne.mpr h
      rw [hb, if_neg Bool.false_ne_true]
      cases hq : (List.filter (fun x => lastSegment x == f) ps).getLast? with
      | some q => rfl
      | none =>
        simp only [lookupKey_insertEntry]
        rw [if_neg (fun hh => h hh.symm)]

theorem lookupKey_buildImageMap (files : List String) (f : String) :
    lookupKey (buildImageMap files) f =
      (files.filter (fun p => lastSegment p == f)).getLast? := by
  unfold buildImageMap
  rw [lookupKey_buildImageMap_go]
  cases hq : (files.filter (fun p => lastSegment p == f)).getLast? <;> rfl

/-- An exact filename hit resolves to the *last* image in `imageFiles` order
bearing that filename, before any partial matching is considered. -/
theorem findImageByUri_exact (imageFiles : List String) (uri q : String)
    (hne : lastSegment uri ≠ "")
    (hlast : (imageFiles.filter (fun p => lastSegment p == lastSegment uri)).getLast? =
      some q) :
    findImageByUri uri (buildImageMap imageFiles) = some q := by
  have hqmem : q ∈ imageFiles.filter (fun p => lastSegment p == lastSegment uri) :=
    mem_of_getLast?_eq_some hlast
  have hqseg : lastSegment q = lastSegment uri := by
    have := (List.mem_filter.mp hqmem).2
    simpa using this
  have hqne : q ≠ "" := by
    intro hq
    rw [hq] at hqseg
    exact hne hqseg.symm
  have hrw : findImageByUri uri (buildImageMap imageFiles) =
      match lookupKey (buildImageMap imageFiles) (lastSegment uri) with
      | some p =>
        if p != "" then some p else partialScan (splitSlash uri) (buildImageMap imageFiles)
      | none => partialScan (splitSlash uri) (buildImageMap imageFiles) := rfl
  rw [hrw, lookupKey_buildImageMap, hlast]
  simp [hqne]

/-! ## C1: exact filename match beats partial match -/

/-- C1: for every PostInfo and image set, if the last path segment of the
mediaUri exactly equals the filename (last path segment) of some image in
the image set, `findImageByUri` pairs the URI with an image of exactly that
filename — regardless of any other image whose filename merely contains a
segment of the URI as a substring (exact match is tried before the partial
scan). -/
theorem exact_filename_match_has_priority (imageFiles : List String)
    (uri imgPath : String) (hmem : imgPath ∈ imageFiles)
    (hseg : lastSegment imgPath = lastSegment uri)
    (hne : lastSegment uri ≠ "") :
    (findImageByUri uri (buildImageMap imageFiles)).isSome = true ∧
    ∀ p, findImageByUri uri (buildImageMap imageFiles) = some p →
      p ∈ imageFiles ∧ lastSegment p = lastSegment uri := by
  have hmemf : imgPath ∈ imageFiles.filter (fun p => lastSegment p == lastSegment uri) :=
    List.mem_filter.mpr ⟨hmem, by simp [hseg]⟩
  have hfne : imageFiles.filter (fun p => lastSegment p == lastSegment uri) ≠ [] := by
    intro hnil
    rw [hnil] at hmemf
    exact absurd hmemf (List.not_mem_nil imgPath)
  obtain ⟨q, hq⟩ := getLast?_isSome_of_ne_nil hfne
  have hres : findImageByUri uri (buildImageMap imageFiles) = some q :=
    findImageByUri_exact imageFiles uri q hne hq
  refine ⟨by rw [hres]; rfl, ?_⟩
  intro p hp
  rw [hres] at hp
  cases hp
  have hqmem := mem_of_getLast?_eq_some hq
  refine ⟨(List.mem_filter.mp hqmem).1, ?_⟩
  have := (List.mem_filter.mp hqmem).2
  simpa using this

/-- C1 witness: a concrete image set where a *different* image's filename
contains a segment of the URI as a substring, yet the exact-named image is
the one found. -/
theorem exact_filename_match_has_priority_witness :
    ("photo2.jpg" ∈ ["media/posts/p1/xphoto2.jpgx.png", "media/posts/p2/photo2.jpg"] ∨
      "media/posts/p2/photo2.jpg" ∈
        ["media/posts/p1/xphoto2.jpgx.png", "media/posts/p2/photo2.jpg"]) ∧
    (findImageByUri "https://cdn/photo2.jpg"
      (buildImageMap
        ["media/posts/p1/xphoto2.jpgx.png", "media/posts/p2/photo2.jpg"])).isSome = true := by
  refine ⟨Or.inr (by decide), ?_⟩
  exact (exact_filename_match_has_priority
    ["media/posts/p1/xphoto2.jpgx.png", "media/posts/p2/photo2.jpg"]
    "https://cdn/photo2.jpg" "media/posts/p2/photo2.jpg"
    (by decide) (by decide) (by decide)).1

/-! ## C10: duplicate filenames — the map keeps the last occurrence -/

/-- C10: when several images share one filename, the filename-to-path map is
built by repeated overwriting, so an exact match on that filename returns
the full path of the *last* such image in image-set order. -/
theorem exact_match_returns_last_duplicate (imageFiles : List String)
    (uri pLast : String) (hne : lastSegment uri ≠ "")
    (hlast : (imageFiles.filter (fun p => lastSegment p == lastSegment uri)).getLast? =
      some pLast) :
    findImageByUri uri (buildImageMap imageFiles) = some pLast :=
  findImageByUri_exact imageFiles uri pLast hne hlast

/-- C10 witness: two images named `x.jpg`; the exact match returns the
second (last) one. -/
theorem exact_match_returns_last_duplicate_witness :
    (lastSegment "c/x.jpg" ≠ "") ∧
    ((["a/x.jpg", "b/x.jpg"].filter
        (fun p => lastSegment p == lastSegment "c/x.jpg")).getLast? = some "b/x.jpg") ∧
    findImageByUri "c/x.jpg" (buildImageMap ["a/x.jpg", "b/x.jpg"]) = some "b/x.jpg" := by
  refine ⟨by decide, by decide, ?_⟩
  exact exact_match_returns_last_duplicate ["a/x.jpg", "b/x.jpg"] "c/x.jpg" "b/x.jpg"
    (by decide) (by decide)

/-! ## C2: global synthetic fallback -/

/-- C2: when processing every PostInfo yields zero pairs and the image set
is non-empty, the matcher outputs exactly `min(#images, 20)` synthetic
pairs, one per image in order from the first, where the pair at 0-based
index `i` has caption `Instagram post (i+1)` and timestamp
`now - i*86400000`; hence timestamps are strictly decreasing along the
output. -/
theorem global_fallback_synthesizes_pairs (postsData : List PostInfo)
    (imageFiles : List String) (now : Int)
    (hmatch : postsData.filterMap
      (matchOne (buildImageMap imageFiles) imageFiles) = [])
    (himg : imageFiles ≠ []) :
    (matchPostsWithImages postsData imageFiles now).length = min imageFiles.length 20 ∧
    (∀ i, ∀ hi : i < (matchPostsWithImages postsData imageFiles now).length,
      (matchPostsWithImages postsData imageFiles now).get ⟨i, hi⟩ =
        ⟨imageFiles.getD i "", "Instagram post " ++ toString (i + 1),
          .val (now - (i : Int) * 86400000), .obj .nil⟩) ∧
    (∀ i j, ∀ hi : i < (matchPostsWithImages postsData imageFiles now).length,
      ∀ hj : j < (matchPostsWithImages postsData imageFiles now).length, i < j →
      ∃ a b : Int,
        ((matchPostsWithImages postsData imageFiles now).get ⟨i, hi⟩).timestamp = .val a ∧
        ((matchPostsWithImages postsData imageFiles now).get ⟨j, hj⟩).timestamp = .val b ∧
        b < a) := by
  have hie : imageFiles.isEmpty = false := by
    cases imageFiles with
    | nil => exact absurd rfl himg
    | cons a l => rfl
  have hres : matchPostsWithImages postsData imageFiles now =
      (List.range (min imageFiles.length 20)).map (fun i =>
        ⟨imageFiles.getD i "", "Instagram post " ++ toString (i + 1),
          .val (now - (i : Int) * 86400000), .obj .nil⟩) := by
    simp only [matchPostsWithImages]
    rw [hmatch]
    simp [hie]
  have hlen : (matchPostsWithImages postsData imageFiles now).length =
      min imageFiles.length 20 := by
    rw [hres]
    simp
  have hget : ∀ i, ∀ hi : i < (matchPostsWithImages postsData imageFiles now).length,
      (matchPostsWithImages postsData imageFiles now).get ⟨i, hi⟩ =
        ⟨imageFiles.getD i "", "Instagram post " ++ toString (i + 1),
          .val (now - (i : Int) * 86400000), .obj .nil⟩ := by
    intro i hi
    have hi2 : i < min imageFiles.length 20 := hlen ▸ hi
    simp only [List.get_eq_getElem]
    conv in (matchPostsWithImages postsData imageFiles now) => rw [hres]
    rw [List.getElem_map, List.getElem_range]
  refine ⟨hlen, hget, ?_⟩
  intro i j hi hj hij
  refine ⟨now - (i : Int) * 86400000, now - (j : Int) * 86400000, ?_, ?_, ?_⟩
  · rw [hget i hi]
  · rw [hget j hj]
  · have : (i : Int) < (j : Int) := by exact_mod_cast hij
    nlinarith

/-- C2 witness: no PostInfos, two images; the fallback emits two pairs. -/
theorem global_fallback_synthesizes_pairs_witness :
    (([] : List PostInfo).filterMap
      (matchOne (buildImageMap ["m/a.jpg", "m/b.jpg"]) ["m/a.jpg", "m/b.jpg"]) = []) ∧
    ((["m/a.jpg", "m/b.jpg"] : List String) ≠ []) ∧
    (matchPostsWithImages [] ["m/a.jpg", "m/b.jpg"] 1700000000000).length =
      min (["m/a.jpg", "m/b.jpg"] : List String).length 20 := by
  refine ⟨rfl, by decide, ?_⟩
  exact (global_fallback_synthesizes_pairs [] ["m/a.jpg", "m/b.jpg"] 1700000000000
    rfl (by decide)).1

/-! ## C3: extraction completeness -/

theorem firstNonBlank_ne_empty {item : JsonVal} {keys : List String} {u : String}
    (h : firstNonBlank item keys = some u) : u ≠ "" := by
  induction keys with
  | nil => simp [firstNonBlank] at h
  | cons k ks ih =>
    simp only [firstNonBlank] at h
    split at h
    next v heq =>
      split at h
      next hc =>
        cases h
        have := (Bool.and_eq_true _ _).mp hc
        simpa using this.2
      next hc => exact ih h
    next heq => exact ih h

/-- C3: for a keyed (object) metadata item, if some recognized media-URI
field (`uri`, `media_uri`, `file_path`, `path`, `url`, probed in that order)
holds a truthy value that trims to a non-blank string, extraction yields
exactly one PostInfo carrying the first such (trimmed) value as its
`mediaUri`; if no recognized field qualifies, the item yields no PostInfo. -/
theorem extraction_completeness (dateParse : String → Option Int) (fields : JsonObj) :
    (firstNonBlank (.obj fields) mediaUriKeys = none →
      extractPostInfo dateParse (.obj fields) = none) ∧
    (∀ u, firstNonBlank (.obj fields) mediaUriKeys = some u →
      (extractPostInfo dateParse (.obj fields)).map PostInfo.mediaUri = some u) := by
  constructor
  · intro h
    simp only [extractPostInfo, h, Option.getD_none]
    rfl
  · intro u h
    have hu : u ≠ "" := firstNonBlank_ne_empty h
    simp only [extractPostInfo, h, Option.getD_some]
    rw [if_neg (by simpa using hu)]
    rfl

/-- C3 witness: an item whose only recognized URI field is `url` (the last
probe), holding a padded value; extraction carries the trimmed URI. -/
theorem extraction_completeness_witness :
    (firstNonBlank (.obj (.cons "title" (.str "hello")
        (.cons "url" (.str " media/a.jpg ") .nil))) mediaUriKeys =
      some "media/a.jpg") ∧
    ((extractPostInfo (fun _ => none) (.obj (.cons "title" (.str "hello")
        (.cons "url" (.str " media/a.jpg ") .nil)))).map PostInfo.mediaUri =
      some "media/a.jpg") := by
  refine ⟨by decide, ?_⟩
  exact (extraction_completeness (fun _ => none)
    (.cons "title" (.str "hello") (.cons "url" (.str " media/a.jpg ") .nil))).2
    "media/a.jpg" (by decide)

/-! ## C6: per-file parse failures are absorbed -/

theorem parseMetadataGo_eq_append {β : Type} (dateParse : String → Option Int)
    (decode : β → Option JsonVal) (fs : List β) (acc : List PostInfo) :
    parseMetadataGo dateParse decode fs acc =
      acc ++ parseMetadataGo dateParse decode fs [] := by
  induction fs generalizing acc with
  | nil => simp [parseMetadataGo]
  | cons f fs ih =>
    cases hd : decode f with
    | none =>
      simp only [parseMetadataGo, hd]
      exact ih acc
    | some v =>
      cases hp : processData dateParse v with
      | error e =>
        simp only [parseMetadataGo, hd, hp]
        exact ih acc
      | ok ps =>
        simp only [parseMetadataGo, hd, hp, List.nil_append]
        rw [ih (acc ++ ps), ih ps]
        simp

/-- C6: metadata extraction is total (caught per-file failures are absorbed,
never propagated), and its output is exactly the concatenation of the
PostInfos extracted from the files that decode and parse successfully —
files with undecodable bytes or invalid JSON contribute nothing. -/
theorem metadata_parse_failures_absorbed {β : Type} (dateParse : String → Option Int)
    (decode : β → Option JsonVal) (files : List β) :
    parseMetadata dateParse decode files =
      (files.filterMap decode).flatMap (postsOfData dateParse) := by
  induction files with
  | nil => rfl
  | cons f fs ih =>
    cases hd : decode f with
    | none =>
      simp only [parseMetadata, parseMetadataGo, hd, List.filterMap_cons]
      exact ih
    | some v =>
      cases hp : processData dateParse v with
      | error e =>
        simp only [parseMetadata, parseMetadataGo, hd, hp, List.filterMap_cons,
          List.flatMap_cons]
        rw [show postsOfData dateParse v = [] by simp [postsOfData, hp]]
        simpa [parseMetadata] using ih
      | ok ps =>
        simp only [parseMetadata, parseMetadataGo, hd, hp, List.filterMap_cons,
          List.flatMap_cons, List.nil_append]
        rw [show postsOfData dateParse v = ps by simp [postsOfData, hp]]
        rw [parseMetadataGo_eq_append]
        simpa [parseMetadata] using ih

/-! ## C4: directory resolution -/

theorem str_eq_empty_iff {s : String} : s = "" ↔ s.data = [] := by
  constructor
  · intro h
    rw [h]
  · intro h
    obtain ⟨d⟩ := s
    subst h
    rfl

theorem charsIndexOf_isSome_of_includes {s sub : List Char}
    (h : charsIncludes s sub = true) : ∃ i, charsIndexOf s sub = some i := by
  induction s with
  | nil =>
    simp only [charsIncludes] at h
    exact ⟨0, by simp [charsIndexOf, h]⟩
  | cons c rest ih =>
    simp only [charsIncludes, Bool.or_eq_true] at h
    by_cases hp : charsPrefixOf sub (c :: rest) = true
    · exact ⟨0, by simp [charsIndexOf, hp]⟩
    · rcases h with h | h
      · exact absurd h hp
      · obtain ⟨i, hi⟩ := ih h
        refine ⟨i + 1, ?_⟩
        simp [charsIndexOf, hp, hi]

theorem data_ne_nil_of_includes {s sub : String} (hsub : sub.data ≠ [])
    (h : strIncludes s sub = true) : s.data ≠ [] := by
  intro hd
  unfold strIncludes at h
  rw [hd] at h
  simp only [charsIncludes, List.isEmpty_iff] at h
  exact hsub h

theorem strTake_ne_empty {s : String} {i : Nat} (hi : i ≠ 0) (hs : s.data ≠ []) :
    strTake s i ≠ "" := by
  intro h
  rw [str_eq_empty_iff] at h
  have hd : s.data.take i = [] := h
  rcases List.take_eq_nil_iff.mp hd with h2 | h2
  · exact hi h2
  · exact hs h2

theorem activity_root_ne_empty (a : String) : a ++ "your_instagram_activity" ≠ "" := by
  intro h
  rw [str_eq_empty_iff] at h
  have hd : a.data ++ ("your_instagram_activity" : String).data = [] := h
  have h3 : ("your_instagram_activity" : String).data = [] := (List.append_eq_nil.mp hd).2
  exact absurd h3 (by decide)

/-- Modelled from the claim's wording: a path "matching `.../media/.../posts/...`",
read as containing an occurrence of `media` followed later by an occurrence
of `posts`. -/
def mediaThenPosts (p : String) : Bool :=
  match strIndexOf p "media" with
  | some i => charsIncludes (p.data.drop (i + 5)) "posts".data
  | none => false

/-- C4 counterexample: this key set has a path matching
`.../media/.../posts/...` and a path containing `your_instagram_activity`,
yet `findDirectories` fails: the *first* key containing both substrings
starts with `posts`, so the computed media prefix is empty and the source
treats it as not found. -/
theorem directory_resolution_claim_cex :
    (["posts/media/a.jpg", "x/media/y/posts/b.jpg",
      "c/your_instagram_activity/d.json"].any mediaThenPosts = true) ∧
    (["posts/media/a.jpg", "x/media/y/posts/b.jpg",
      "c/your_instagram_activity/d.json"].any activityPred = true) ∧
    findDirectories ["posts/media/a.jpg", "x/media/y/posts/b.jpg",
      "c/your_instagram_activity/d.json"] = none := by
  refine ⟨by decide, by decide, by decide⟩

/-- C4 amended: directory resolution succeeds iff some key contains
`your_instagram_activity` and the first key (in key order) containing both
substrings `media` and `posts` exists and does not have `posts` at position
0 (i.e. the media prefix cut before the first `posts` is non-empty);
otherwise it fails with the directory-not-found error.  (The claim's
pattern `.../media/.../posts/...` is neither necessary nor sufficient: an
earlier key with `posts` at position 0 makes resolution fail, and a key
merely containing the two substrings in any arrangement with a non-empty
prefix makes it succeed.) -/
theorem directory_resolution_amended (paths : List String) :
    (findDirectories paths).isSome = true ↔
      ((∃ p, paths.find? mediaPred = some p ∧ strIndexOf p "posts" ≠ some 0) ∧
        ∃ q, paths.find? activityPred = some q) := by
  cases hm : paths.find? mediaPred with
  | none =>
    simp only [findDirectories, hm]
    simp
  | some p =>
    cases ha : paths.find? activityPred with
    | none =>
      simp only [findDirectories, hm, ha]
      have : ("" : String) == "" := beq_self_eq_true ""
      simp
    | some q =>
      have hpmedia : mediaPred p = true := List.find?_some hm
      have hpposts : strIncludes p "posts" = true :=
        ((Bool.and_eq_true _ _).mp hpmedia).2
      obtain ⟨i, hi⟩ := charsIndexOf_isSome_of_includes hpposts
      have hidata : p.data ≠ [] := data_ne_nil_of_includes (by decide) hpposts
      have hact : (strTake q ((strIndexOf q "your_instagram_activity").getD 0) ++
          "your_instagram_activity" == "") = false :=
        beq_eq_false_iff_ne.mpr (activity_root_ne_empty _)
      have hi2 : strIndexOf p "posts" = some i := hi
      simp only [findDirectories, hm, ha, hi2, Option.getD_some, hact, Bool.or_false]
      by_cases hz : i = 0
      · subst hz
        have h0 : strTake p 0 = "" := rfl
        simp [h0, hi2]
      · have hne2 : strTake p i ≠ "" := strTake_ne_empty hz hidata
        have hbe : (strTake p i == "") = false := beq_eq_false_iff_ne.mpr hne2
        simp [hbe, hi2, hz]

/-- C4 amended witness: a well-formed key set resolves successfully. -/
theorem directory_resolution_amended_witness :
    (findDirectories
      ["a/media/posts/x.jpg", "b/your_instagram_activity/y.json"]).isSome = true :=
  (directory_resolution_amended _).mpr
    ⟨⟨"a/media/posts/x.jpg", by decide, by decide⟩,
      "b/your_instagram_activity/y.json", by decide⟩

/-! ## C7: unparseable textual timestamps -/

/-- The value at which the timestamp probing loop breaks: the first probed
field holding a truthy value. -/
def firstTruthyTs (item : JsonVal) : List String → Option JsonVal
  | [] => none
  | k :: ks =>
    match itemLookup item k with
    | some v => if truthy v then some v else firstTruthyTs item ks
    | none => firstTruthyTs item ks

theorem extractTimestamp_nan_of {dateParse : String → Option Int} {item : JsonVal}
    {keys : List String} {s : String}
    (h1 : firstTruthyTs item keys = some (.str s)) (h2 : dateParse s = none) :
    extractTimestamp dateParse item keys = .nan := by
  induction keys with
  | nil => simp [firstTruthyTs] at h1
  | cons k ks ih =>
    cases hl : itemLookup item k with
    | none =>
      simp only [firstTruthyTs, hl] at h1
      simp only [extractTimestamp, hl]
      exact ih h1
    | some v =>
      simp only [firstTruthyTs, hl] at h1
      simp only [extractTimestamp, hl]
      by_cases ht : truthy v = true
      · rw [if_pos ht] at h1
        cases h1
        rw [if_pos ht]
        show (match dateParse s with
          | some n => TsVal.val n
          | none => TsVal.nan) = TsVal.nan
        rw [h2]
      · rw [if_neg ht] at h1
        rw [if_neg ht]
        exact ih h1

/-- C7 counterexample: a keyed item with a URI and a `date` field holding an
unparseable date string.  Extraction succeeds, but the resulting PostInfo's
timestamp is the NaN sentinel — a *present* invalid number, not an absent
timestamp as the claim states.  (`fun _ => none` is the date parser's
behavior on this string: `new Date('not-a-date').getTime()` is `NaN`.) -/
theorem timestamp_unset_claim_cex :
    ((extractPostInfo (fun _ => none)
        (.obj (.cons "uri" (.str "media/a.jpg")
          (.cons "date" (.str "not-a-date") .nil)))).map PostInfo.timestamp =
      some TsVal.nan) ∧
    TsVal.nan ≠ TsVal.undef := by
  refine ⟨by decide, by decide⟩

/-- C7 amended: for an item whose first truthy timestamp field holds a
textual date that fails to parse, extraction of the item still succeeds
(given a recognized media URI), and the PostInfo's timestamp is set to the
NaN sentinel — present but treated as unset by all later truthiness
checks — rather than left absent. -/
theorem timestamp_parse_failure_gives_nan (dateParse : String → Option Int)
    (item : JsonVal) (s u : String)
    (h1 : firstTruthyTs item timestampKeys = some (.str s))
    (h2 : dateParse s = none)
    (h3 : firstNonBlank item mediaUriKeys = some u) :
    (extractPostInfo dateParse item).isSome = true ∧
    (extractPostInfo dateParse item).map PostInfo.timestamp = some TsVal.nan := by
  have hu : u ≠ "" := firstNonBlank_ne_empty h3
  have hts : extractTimestamp dateParse item timestampKeys = .nan :=
    extractTimestamp_nan_of h1 h2
  simp only [extractPostInfo, h3, Option.getD_some, hts]
  rw [if_neg (by simpa using hu)]
  exact ⟨rfl, rfl⟩

/-- C7 amended witness: the concrete unparseable-date item again, routed
through the amended theorem. -/
theorem timestamp_parse_failure_gives_nan_witness :
    (extractPostInfo (fun _ => none)
      (.obj (.cons "uri" (.str "media/a.jpg")
        (.cons "date" (.str "not-a-date") .nil)))).isSome = true :=
  (timestamp_parse_failure_gives_nan (fun _ => none)
    (.obj (.cons "uri" (.str "media/a.jpg")
      (.cons "date" (.str "not-a-date") .nil))) "not-a-date" "media/a.jpg"
    (by rfl) rfl (by decide)).1

/-! ## C8: timestamp fallback -/

/-- C8 counterexample: a PostInfo that *has* a timestamp — the value `0`
(reachable, e.g. from the date string `1970-01-01T00:00:00Z`) — whose URI
matches no image, with a non-empty image set.  The claim says it is paired
with the first image; the code's `if (post.timestamp)` treats `0` as falsy
and drops the post instead. -/
theorem timestamp_fallback_claim_cex :
    ((matchOne (buildImageMap ["a/img.jpg"]) ["a/img.jpg"]
        ⟨"cap", "x.jpg", TsVal.val 0, .null⟩).isNone = true) ∧
    (findImageByUri "x.jpg" (buildImageMap ["a/img.jpg"]) = none) ∧
    ((["a/img.jpg"] : List String) ≠ []) ∧
    TsVal.val 0 ≠ TsVal.undef := by
  refine ⟨by decide, by decide, by decide, by decide⟩

/-- C8 amended: a PostInfo with a *truthy* timestamp (a number other than
`0` and `NaN`) for which URI matching does not succeed (either because the
mediaUri is empty and is never tried, or because both exact and partial
matching fail) is paired with the first image of a non-empty image set. -/
theorem timestamp_fallback_pairs_first_image (imageFiles : List String)
    (post : PostInfo) (t : Int) (img : String) (rest : List String)
    (hts : post.timestamp = .val t) (ht : t ≠ 0)
    (huri : post.mediaUri = "" ∨
      findImageByUri post.mediaUri (buildImageMap imageFiles) = none)
    (himg : imageFiles = img :: rest) :
    matchOne (buildImageMap imageFiles) imageFiles post =
      some ⟨img, post.caption, post.timestamp, post.originalData⟩ := by
  subst himg
  have h1 : (if post.mediaUri != "" then
      findImageByUri post.mediaUri (buildImageMap (img :: rest)) else none) = none := by
    rcases huri with h | h
    · simp [h]
    · by_cases hmu : post.mediaUri = "" <;> simp [hmu, h]
  have h2 : post.timestamp.truthy = true := by
    rw [hts]
    simpa [TsVal.truthy] using ht
  simp only [matchOne, h1, h2, if_true, findImageByTimestamp]

/-- C8 amended witness: a post with nonzero timestamp and unmatched URI is
paired with the first of two images. -/
theorem timestamp_fallback_pairs_first_image_witness :
    matchOne (buildImageMap ["m/first.jpg", "m/second.jpg"])
      ["m/first.jpg", "m/second.jpg"] ⟨"cap", "zzz.xyz", TsVal.val 5, .null⟩ =
      some ⟨"m/first.jpg", "cap", TsVal.val 5, .null⟩ :=
  timestamp_fallback_pairs_first_image ["m/first.jpg", "m/second.jpg"]
    ⟨"cap", "zzz.xyz", TsVal.val 5, .null⟩ 5 "m/first.jpg" ["m/second.jpg"]
    rfl (by decide) (Or.inr (by decide)) rfl

/-! ## Helper lemmas: batch insertion into the instance table -/

/-- Key `k` is present in the table and every binding of `k` carries `v`. -/
def mapsTo {β : Type} (t : List (String × β)) (k : String) (v : β) : Prop :=
  (∃ p ∈ t, p.1 = k) ∧ ∀ p ∈ t, p.1 = k → p.2 = v

theorem insertEntry_of_mapsTo {β : Type} {t : List (String × β)} {k : String} {v : β}
    (h : mapsTo t k v) : insertEntry t k v = t := by
  obtain ⟨⟨p, hp, hpk⟩, hall⟩ := h
  unfold insertEntry
  rw [if_pos (List.any_eq_true.mpr ⟨p, hp, by simp [hpk]⟩)]
  apply map_eq_self_of_mem
  intro q hq
  by_cases hqk : q.1 = k
  · have hv : q.2 = v := hall q hq hqk
    simp only [hqk, beq_self_eq_true, if_true]
    rw [← hqk, ← hv]
  · simp [beq_eq_false_iff_ne.mpr hqk]

theorem mapsTo_insertEntry_self {β : Type} (t : List (String × β)) (k : String) (v : β) :
    mapsTo (insertEntry t k v) k v := by
  unfold insertEntry
  cases hany : t.any (fun kv => kv.1 == k) with
  | true =>
    rw [if_pos rfl]
    obtain ⟨p, hp, hpk⟩ := List.any_eq_true.mp hany
    constructor
    · exact ⟨(k, v), List.mem_map.mpr ⟨p, hp, by simp [by simpa using hpk]⟩, rfl⟩
    · intro q hq hqk
      obtain ⟨r, hr, hfr⟩ := List.mem_map.mp hq
      by_cases hrk : r.1 = k
      · rw [if_pos (by simpa using hrk)] at hfr
        rw [← hfr]
      · rw [if_neg (by simpa using hrk)] at hfr
        rw [← hfr] at hqk
        exact absurd hqk hrk
  | false =>
    rw [if_neg (by simp [hany])]
    constructor
    · exact ⟨(k, v), List.mem_append_right _ (List.mem_singleton.mpr rfl), rfl⟩
    · intro q hq hqk
      rcases List.mem_append.mp hq with hq | hq
      · have := List.any_eq_false.mp hany q hq
        exact absurd (by simpa using hqk) (by simpa using this)
      · rw [List.mem_singleton.mp hq]

theorem mapsTo_insertEntry_other {β : Type} {t : List (String × β)} {k2 : String}
    {v2 : β} (k : String) (v : β) (hne : k2 ≠ k) (h : mapsTo t k2 v2) :
    mapsTo (insertEntry t k v) k2 v2 := by
  obtain ⟨⟨p, hp, hpk⟩, hall⟩ := h
  unfold insertEntry
  cases hany : t.any (fun kv => kv.1 == k) with
  | true =>
    rw [if_pos rfl]
    constructor
    · refine ⟨p, List.mem_map.mpr ⟨p, hp, ?_⟩, hpk⟩
      rw [if_neg (by simp [hpk ▸ hne])]
    · intro q hq hqk
      obtain ⟨r, hr, hfr⟩ := List.mem_map.mp hq
      by_cases hrk : r.1 = k
      · rw [if_pos (by simpa using hrk)] at hfr
        rw [← hfr] at hqk
        exact absurd hqk.symm (by simpa using hne)
      · rw [if_neg (by simpa using hrk)] at hfr
        rw [← hfr]
        exact hall r hr (by rw [← hfr] at hqk; exact hqk)
  | false =>
    rw [if_neg (by simp [hany])]
    constructor
    · exact ⟨p, List.mem_append_left _ hp, hpk⟩
    · intro q hq hqk
      rcases List.mem_append.mp hq with hq | hq
      · exact hall q hq hqk
      · rw [List.mem_singleton.mp hq] at hqk
        exact absurd hqk.symm (by simpa using hne)

theorem mapsTo_insertAll_other {β : Type} {t : List (String × β)} {k2 : String}
    {v2 : β} {es : List (String × β)} (hk : k2 ∉ es.map Prod.fst)
    (h : mapsTo t k2 v2) : mapsTo (insertAll t es) k2 v2 := by
  induction es generalizing t with
  | nil => exact h
  | cons e es ih =>
    simp only [List.map_cons, List.mem_cons] at hk
    exact ih (fun hh => hk (Or.inr hh))
      (mapsTo_insertEntry_other e.1 e.2 (fun hh => hk (Or.inl hh)) h)

theorem mapsTo_insertAll {β : Type} {es : List (String × β)}
    (hnd : (es.map Prod.fst).Nodup) (t : List (String × β)) :
    ∀ kv ∈ es, mapsTo (insertAll t es) kv.1 kv.2 := by
  induction es generalizing t with
  | nil => simp
  | cons e es ih =>
    simp only [List.map_cons, List.nodup_cons] at hnd
    intro kv hkv
    rcases List.mem_cons.mp hkv with hkv | hkv
    · subst hkv
      show mapsTo (insertAll (insertEntry t kv.1 kv.2) es) kv.1 kv.2
      exact mapsTo_insertAll_other hnd.1 (mapsTo_insertEntry_self t kv.1 kv.2)
    · exact ih hnd.2 (insertEntry t e.1 e.2) kv hkv

theorem insertAll_eq_self {β : Type} {t : List (String × β)} {es : List (String × β)}
    (h : ∀ kv ∈ es, mapsTo t kv.1 kv.2) : insertAll t es = t := by
  induction es with
  | nil => rfl
  | cons e es ih =>
    show insertAll (insertEntry t e.1 e.2) es = t
    rw [insertEntry_of_mapsTo (h e (List.mem_cons_self e es))]
    exact ih (fun kv hkv => h kv (List.mem_cons_of_mem e hkv))

/-- Re-assigning the same unique-keyed batch into a table is a no-op. -/
theorem insertAll_idem {β : Type} (t : List (String × β)) (es : List (String × β))
    (hnd : (es.map Prod.fst).Nodup) :
    insertAll (insertAll t es) es = insertAll t es :=
  insertAll_eq_self (fun kv hkv => mapsTo_insertAll hnd t kv hkv)

/-! ## C5: idempotence of repeated parses of the same bytes -/

/-- C5 counterexample: re-parsing the same archive does not give identical
timestamps when the global fallback triggers, because the synthetic
timestamps embed `Date.now()` of the invocation.  The archive below (one
image, no metadata files) resolves fine and takes the fallback path; two
invocations on the same parser at clock readings 1000 and 2000 return
posts whose timestamps differ. -/
theorem parse_idempotence_claim_cex :
    (((runParse (fun _ => none) (fun (_ : Unit) => none) []
        [("a/media/posts/i.jpg", false, ()), ("a/your_instagram_activity/m.txt", false, ())]
        1000).2).map (fun o => o.pairs.map MatchedPair.timestamp) =
      some [TsVal.val 1000]) ∧
    (((runParse (fun _ => none) (fun (_ : Unit) => none)
        ((runParse (fun _ => none) (fun (_ : Unit) => none) []
          [("a/media/posts/i.jpg", false, ()), ("a/your_instagram_activity/m.txt", false, ())]
          1000).1)
        [("a/media/posts/i.jpg", false, ()), ("a/your_instagram_activity/m.txt", false, ())]
        2000).2).map (fun o => o.pairs.map MatchedPair.timestamp) =
      some [TsVal.val 2000]) ∧
    TsVal.val 1000 ≠ TsVal.val 2000 := by
  refine ⟨by decide, by decide, by decide⟩

/-- C5 amended: at an unchanged clock reading, re-running the parse on the
same archive bytes (same parser instance, whose table is re-assigned the
same entries — the ZIP entry names are unique, hence the `Nodup`
hypothesis) returns an identical result: same pairs (caption, timestamp,
image path), same counts, same metadata-file-name list.  The original
claim additionally holds timestamps fixed across invocations at different
clock readings, which fails on the synthetic-fallback path. -/
theorem parse_idempotence_same_clock {β : Type} (dateParse : String → Option Int)
    (decode : β → Option JsonVal) (entries : List (String × Bool × β)) (now : Int)
    (hnd : ((nonDirEntries entries).map Prod.fst).Nodup) :
    (runParse dateParse decode ((runParse dateParse decode [] entries now).1)
      entries now).2 =
      (runParse dateParse decode [] entries now).2 := by
  show pipelineOf dateParse decode
      (insertAll (insertAll [] (nonDirEntries entries)) (nonDirEntries entries)) now =
    pipelineOf dateParse decode (insertAll [] (nonDirEntries entries)) now
  rw [insertAll_idem [] (nonDirEntries entries) hnd]

/-- C5 amended witness: the same archive as the counterexample, re-parsed at
the same clock reading, gives the identical result. -/
theorem parse_idempotence_same_clock_witness :
    (runParse (fun _ => none) (fun (_ : Unit) => none)
      ((runParse (fun _ => none) (fun (_ : Unit) => none) []
        [("a/media/posts/i.jpg", false, ()), ("a/your_instagram_activity/m.txt", false, ())]
        1000).1)
      [("a/media/posts/i.jpg", false, ()), ("a/your_instagram_activity/m.txt", false, ())]
      1000).2 =
    (runParse (fun _ => none) (fun (_ : Unit) => none) []
      [("a/media/posts/i.jpg", false, ()), ("a/your_instagram_activity/m.txt", false, ())]
      1000).2 :=
  parse_idempotence_same_clock (fun _ => none) (fun (_ : Unit) => none)
    [("a/media/posts/i.jpg", false, ()), ("a/your_instagram_activity/m.txt", false, ())]
    1000 (by decide)

/-! ## C9: the instance table across invocations -/

theorem insertAll_of_disjoint {β : Type} {t es : List (String × β)}
    (hnd : (es.map Prod.fst).Nodup)
    (hdisj : ∀ kv ∈ es, t.any (fun p => p.1 == kv.1) = false) :
    insertAll t es = t ++ es := by
  induction es generalizing t with
  | nil => simp [insertAll]
  | cons e es ih =>
    simp only [List.map_cons, List.nodup_cons] at hnd
    have h1 : insertEntry t e.1 e.2 = t ++ [e] := by
      unfold insertEntry
      rw [if_neg (by simp [hdisj e (List.mem_cons_self e es)])]
    show insertAll (insertEntry t e.1 e.2) es = t ++ e :: es
    rw [h1]
    have hdisj2 : ∀ kv ∈ es, ((t ++ [e]).any fun p => p.1 == kv.1) = false := by
      intro kv hkv
      rw [List.any_append]
      have h2 : t.any (fun p => p.1 == kv.1) = false :=
        hdisj kv (List.mem_cons_of_mem e hkv)
      have h3 : [e].any (fun p => p.1 == kv.1) = false := by
        simp only [List.any_cons, List.any_nil, Bool.or_false]
        refine beq_eq_false_iff_ne.mpr ?_
        intro hh
        exact hnd.1 (hh ▸ List.mem_map.mpr ⟨kv, hkv, rfl⟩)
      rw [h2, h3]
      rfl
    rw [ih hnd.2 hdisj2]
    simp

theorem key_mem_of_mem_insertEntry {β : Type} {t : List (String × β)} {k : String}
    {v : β} {p : String × β} (hp : p ∈ insertEntry t k v) :
    p.1 ∈ t.map Prod.fst ∨ p.1 = k := by
  unfold insertEntry at hp
  by_cases hany : t.any (fun kv => kv.1 == k) = true
  · rw [if_pos hany] at hp
    obtain ⟨r, hr, hfr⟩ := List.mem_map.mp hp
    by_cases hrk : r.1 = k
    · rw [if_pos (by simpa using hrk)] at hfr
      right
      rw [← hfr]
    · rw [if_neg (by simpa using hrk)] at hfr
      left
      exact hfr ▸ List.mem_map.mpr ⟨r, hr, rfl⟩
  · rw [if_neg hany] at hp
    rcases List.mem_append.mp hp with hp | hp
    · exact Or.inl (List.mem_map.mpr ⟨p, hp, rfl⟩)
    · rw [List.mem_singleton.mp hp]
      exact Or.inr rfl

theorem key_mem_of_mem_insertAll {β : Type} {t es : List (String × β)}
    {p : String × β} (hp : p ∈ insertAll t es) :
    p.1 ∈ t.map Prod.fst ∨ p.1 ∈ es.map Prod.fst := by
  induction es generalizing t with
  | nil => exact Or.inl (List.mem_map.mpr ⟨p, hp, rfl⟩)
  | cons e es ih =>
    have hp2 : p ∈ insertAll (insertEntry t e.1 e.2) es := hp
    rcases ih hp2 with h | h
    · obtain ⟨r, hr, hfr⟩ := List.mem_map.mp h
      rcases key_mem_of_mem_insertEntry hr with h2 | h2
      · exact Or.inl (hfr ▸ h2)
      · right
        simp [← hfr, h2]
    · right
      simp [h]

/-- C9 counterexample: a parser instance first parses an archive containing
only `old/file.txt` (that invocation fails directory resolution, but the
table keeps its entries), then parses a well-formed second archive.  The
second invocation succeeds, yet the table it observes — and would return as
`extractedFiles` — still contains `old/file.txt`, which is not an entry of
the second archive. -/
theorem table_isolation_claim_cex :
    ((((runParse (fun _ => none) (fun (_ : Unit) => none)
        ((runParse (fun _ => none) (fun (_ : Unit) => none) []
          [("old/file.txt", false, ())] 0).1)
        [("a/media/posts/i.jpg", false, ()), ("a/your_instagram_activity/m.txt", false, ())]
        0).1).map Prod.fst).contains "old/file.txt" = true) ∧
    (((runParse (fun _ => none) (fun (_ : Unit) => none)
        ((runParse (fun _ => none) (fun (_ : Unit) => none) []
          [("old/file.txt", false, ())] 0).1)
        [("a/media/posts/i.jpg", false, ()), ("a/your_instagram_activity/m.txt", false, ())]
        0).2).isSome = true) ∧
    (([("a/media/posts/i.jpg", false, ()), ("a/your_instagram_activity/m.txt", false, ())].map
        (fun (e : String × Bool × Unit) => e.1)).contains "old/file.txt" = false) := by
  refine ⟨by decide, by decide, by decide⟩

/-- C9 amended: the table observed by an invocation is the previous table
upserted with the current archive's non-directory entries: a fresh parser
observes exactly the current archive's entries; on an already-used parser
every current entry is present with its current content, but keys may also
persist from earlier invocations' archives (no clearing happens between
parses — only `cleanup()` clears). -/
theorem table_carries_over_unless_cleaned {β : Type} (dateParse : String → Option Int)
    (decode : β → Option JsonVal) (es1 es2 : List (String × Bool × β)) (now : Int)
    (hnd1 : ((nonDirEntries es1).map Prod.fst).Nodup)
    (hnd2 : ((nonDirEntries es2).map Prod.fst).Nodup) :
    ((runParse dateParse decode [] es1 now).1 = nonDirEntries es1) ∧
    (∀ kv ∈ nonDirEntries es2,
      mapsTo ((runParse dateParse decode ((runParse dateParse decode [] es1 now).1)
        es2 now).1) kv.1 kv.2) ∧
    (∀ p ∈ (runParse dateParse decode ((runParse dateParse decode [] es1 now).1)
        es2 now).1,
      p.1 ∈ (nonDirEntries es1).map Prod.fst ∨ p.1 ∈ (nonDirEntries es2).map Prod.fst) := by
  have h1 : (runParse dateParse decode [] es1 now).1 = nonDirEntries es1 := by
    show insertAll [] (nonDirEntries es1) = nonDirEntries es1
    rw [@insertAll_of_disjoint _ [] (nonDirEntries es1) hnd1 (fun kv _ => rfl)]
    rfl
  refine ⟨h1, ?_, ?_⟩
  · intro kv hkv
    exact mapsTo_insertAll hnd2 _ kv hkv
  · intro p hp
    have hp2 : p ∈ insertAll ((runParse dateParse decode [] es1 now).1)
        (nonDirEntries es2) := hp
    rcases key_mem_of_mem_insertAll hp2 with h | h
    · rw [h1] at h
      exact Or.inl h
    · exact Or.inr h

/-- C9 amended witness: on a fresh parser the observed table is exactly the
archive's non-directory entries (directory entries dropped). -/
theorem table_carries_over_unless_cleaned_witness :
    (runParse (fun _ => none) (fun (_ : Unit) => none) []
      [("a/media/", true, ()), ("a/media/posts/i.jpg", false, ())] 0).1 =
      [("a/media/posts/i.jpg", ())] :=
  (table_carries_over_unless_cleaned (fun _ => none) (fun (_ : Unit) => none)
    [("a/media/", true, ()), ("a/media/posts/i.jpg", false, ())] [] 0
    (by decide) (by decide)).1
